import Mathlib

/-!
Verification of the MotoBot document-structuring pipeline.

This file gives a shallow embedding, in Lean, of the pure core of the
MotoBot PDF-ingestion pipeline and proves properties of it:

* `pdf_loading/pdf_loader.py`: filename metadata extraction
  (`extract_metadata`), TOC-driven section segmentation
  (`organize_by_section`) and drawing-to-section association
  (`map_drawings_to_sections`);
* `nlp/chunking.py`: sliding-window text chunking (`_chunk_section`);
* `Image_extraction/images_extract.py`: diagram candidate filtering,
  padding arithmetic and per-document failure semantics
  (`_find_diagrams`, `_extract_diagram`, `extract_diagrams_from_pdf`);
* `main.py`: the batch orchestration layer (`process_pdf`,
  `process_batch`, `process_all_pdfs`) and its statistics aggregation.

Text is modelled as `List Char` (Python `str`), page numbers as `Int`
(Python `int`), dictionaries keyed by insertion order as association
lists.  Exceptions are modelled with `Except`/`Option`.  External
collaborators (PyMuPDF, pypdfium2, OpenCV contour detection, NLTK
tokenizers) are modelled at their interface: rendered pages are given by
their candidate regions, and the NLTK word/sentence tokenizers are
modelled from the spec as whitespace word splitting and splitting after
sentence terminators.
-/

namespace MotoBot

/-! ### Generic text helpers (Python string primitives) -/

/-- Python `str.strip()` on `List Char`: drop whitespace from both ends. -/
def trimChars (t : List Char) : List Char :=
  ((t.dropWhile Char.isWhitespace).reverse.dropWhile Char.isWhitespace).reverse

/-- Fuel-driven body of `replaceAll`.  Each step consumes at least one
character of `s` and one unit of fuel, so with initial fuel `s.length`
the fuel never runs out and the fuel-exhausted arm is unreachable; the
fuel only makes the recursion structural. -/
def replaceAllFuel (pat rep : List Char) : Nat → List Char → List Char
  | _, [] => []
  | 0, s => s
  | fuel + 1, c :: cs =>
    if pat ≠ [] ∧ pat.isPrefixOf (c :: cs) then
      rep ++ replaceAllFuel pat rep fuel ((c :: cs).drop pat.length)
    else
      c :: replaceAllFuel pat rep fuel cs

/-- Python `str.replace(pat, rep)`: replace every non-overlapping occurrence
of `pat`, scanning left to right; the replacement text is not rescanned. -/
def replaceAll (pat rep s : List Char) : List Char :=
  replaceAllFuel pat rep s.length s

/-- Python `pat in s`: substring containment test. -/
def containsTok (pat : List Char) : List Char → Bool
  | [] => pat.isEmpty
  | c :: cs => pat.isPrefixOf (c :: cs) || containsTok pat cs

/-- Insert into a sorted list, keeping existing equal elements first. -/
def insertLe (le : α → α → Bool) (a : α) : List α → List α
  | [] => [a]
  | b :: bs => if le a b then a :: b :: bs else b :: insertLe le a bs

/-- Stable insertion sort; Python `sorted` is a stable sort, and any two
stable sorts by the same key agree, so this models `sorted(...)`. -/
def sortLe (le : α → α → Bool) : List α → List α
  | [] => []
  | a :: as => insertLe le a (sortLe le as)

/-! ### Tokenizers

Modelled from the spec: `nltk.word_tokenize` and `nltk.sent_tokenize`
(external library, not part of this repository) are modelled as
whitespace word splitting ("tokenize section text into words") and
splitting after the sentence terminators `.`, `!`, `?`. -/

/-- Accumulator pass for `wordTokenize`: `acc` holds the reversed current
word. -/
def wordTokAux : List Char → List Char → List (List Char)
  | [], acc => if acc.isEmpty then [] else [acc.reverse]
  | c :: cs, acc =>
    if c.isWhitespace then
      if acc.isEmpty then wordTokAux cs [] else acc.reverse :: wordTokAux cs []
    else wordTokAux cs (c :: acc)

/-- Modelled from the spec: `nltk.word_tokenize`, as splitting the text
into maximal runs of non-whitespace characters. -/
def wordTokenize (t : List Char) : List (List Char) :=
  wordTokAux t []

/-- Sentence terminator characters recognised by the chunker. -/
def isSentenceEnd (c : Char) : Bool := c == '.' || c == '!' || c == '?'

/-- Accumulator pass for `sentTokenize`. -/
def sentSplitAux : List Char → List Char → List (List Char)
  | [], acc => if acc.isEmpty then [] else [acc.reverse]
  | c :: cs, acc =>
    if isSentenceEnd c then (acc.reverse ++ [c]) :: sentSplitAux cs []
    else sentSplitAux cs (c :: acc)

/-- Modelled from the spec: `nltk.sent_tokenize` (external library), as
splitting after each sentence terminator, keeping the terminator; a
trailing run without a terminator is a final (incomplete) sentence. -/
def sentTokenize (t : List Char) : List (List Char) :=
  sentSplitAux t []

/-- Python `" ".join(words)`. -/
def joinWords (ws : List (List Char)) : List Char :=
  List.intercalate [' '] ws

/-! ### `pdf_loading/pdf_loader.py` -/

/-- The drawing record appended to `section.drawings` by
`PDFLoader.map_drawings_to_sections` (a projection of the drawing dict). -/
structure DrawingRef where
  drawing_id : String
  page_number : Int
  image_path : String
  x : Int
  y : Int
  w : Int
  h : Int
deriving DecidableEq

/-- `PDFSection` dataclass from `pdf_loader.py`.  Section text is
`List Char`; the metadata labels are opaque strings. -/
structure PDFSection where
  heading : String
  start_page : Int
  end_page : Int
  text : List Char
  model : String
  year : String
  source_pdf : String
  drawings : List DrawingRef := []
deriving DecidableEq

/-- `PDFMetadata` dataclass from `pdf_loader.py`. -/
structure PDFMetadata where
  family : Option (List Char)
  year : Option (List Char)
  model_name : List Char
  original_name : List Char
deriving DecidableEq

/-- The ordered family list from `PDFLoader.__init__` (`ducati_families`). -/
def ducatiFamilies : List (List Char) :=
  ["DesertX".toList, "Diavel".toList, "Hypermotard".toList, "Monster".toList,
   "Multistrada".toList, "Off-Road".toList, "Panigale".toList, "Scrambler".toList,
   "Streetfighter".toList, "Supersport".toList, "Superbike".toList, "XDiavel".toList]

/-- The ordered cleanup token list from `PDFLoader.__init__`
(`_name_cleanup_patterns`). -/
def namePatterns : List (List Char) :=
  ["OM".toList, "_".toList, ".pdf".toList, "-".toList, "EN".toList,
   "ED00".toList, "ED01".toList, "ED02".toList, "ED03".toList,
   "Rev01".toList, "Rev02".toList]

/-- The cleanup loop of `extract_metadata`: apply
`cleaned_name.replace(pattern, '')` for each pattern in order. -/
def applyCleanup (name : List Char) : List Char :=
  namePatterns.foldl (fun acc pat => replaceAll pat [] acc) name

/-- The `re.search(r"MY([0-9][0-9])", s)` step of `extract_metadata`:
leftmost occurrence of `MY` followed by two digits, returning the digits. -/
def findMY : List Char → Option (Char × Char)
  | [] => none
  | c :: cs =>
    match c, cs with
    | 'M', 'Y' :: a :: b :: _ =>
      if a.isDigit ∧ b.isDigit then some (a, b) else findMY cs
    | _, _ => findMY cs

/-- Numeric value of a decimal digit character. -/
def digitVal (c : Char) : Nat := c.toNat - 48

/-- The year policy of `extract_metadata`: two-digit year `xx` maps to
`19xx` when `xx > 50`, else `20xx`. -/
def yearChars (a b : Char) : List Char :=
  if 50 < 10 * digitVal a + digitVal b then '1' :: '9' :: [a, b]
  else '2' :: '0' :: [a, b]

/-- The family scan of `extract_metadata`: first entry of the ordered
family list that is a substring of the cleaned name. -/
def findFamily (cleaned : List Char) : Option (List Char) :=
  ducatiFamilies.find? (fun f => containsTok f cleaned)

/-- `PDFLoader.extract_metadata`: clean the filename with the ordered
cleanup tokens and strip it; scan the family list (first substring match
wins); if no family matches, return `PDFMetadata(None, None, cleaned,
original)`; otherwise search for the `MYxx` year token, and on a match
remove all occurrences of the matched text and strip again. -/
def extract_metadata (pdf_name : List Char) : PDFMetadata :=
  let cleaned := trimChars (applyCleanup pdf_name)
  match findFamily cleaned with
  | none => ⟨none, none, cleaned, pdf_name⟩
  | some fam =>
    match findMY cleaned with
    | none => ⟨some fam, none, cleaned, pdf_name⟩
    | some (a, b) =>
      ⟨some fam, some (yearChars a b),
       trimChars (replaceAll ('M' :: 'Y' :: [a, b]) [] cleaned), pdf_name⟩

/-- `cleaned_content.get(p, "")` where the page dict maps `1..len` to the
page texts of `content` in order. -/
def getPage (content : List (List Char)) (p : Int) : List Char :=
  if 1 ≤ p then content.getD (p.toNat - 1) [] else []

/-- The text-collection loop of `organize_by_section`: concatenate
`content.get(p, "") + "\n"` for `p` in `start..end` inclusive, then strip. -/
def sectionText (content : List (List Char)) (s e : Int) : List Char :=
  trimChars
    (((List.range (e + 1 - s).toNat).map
        (fun i => getPage content (s + i) ++ ['\n'])).flatten)

/-- End page of the current TOC entry: next sorted entry page minus one,
or the page count for the final entry. -/
def tocEndPage (n : Int) (rest : List (String × Int)) : Int :=
  match rest with
  | [] => n
  | (_, s2) :: _ => s2 - 1

/-- The section-building loop of `organize_by_section` over the sorted
TOC: an entry with `start_page < 1` or `end_page > page count` is
skipped (logged as a warning in the source); the rest become sections. -/
def sectionsOfSortedToc (content : List (List Char)) (year model pdf_name : String) :
    List (String × Int) → List PDFSection
  | [] => []
  | (heading, start_page) :: rest =>
    let end_page := tocEndPage (content.length : Int) rest
    let tail := sectionsOfSortedToc content year model pdf_name rest
    if start_page < 1 ∨ (content.length : Int) < end_page then tail
    else
      ⟨heading, start_page, end_page, sectionText content start_page end_page,
        model, year, pdf_name, []⟩ :: tail

/-- Comparison used to sort the TOC by start page (`key=lambda x: x[1]`,
Python `sorted` is a stable merge sort). -/
def tocLe (a b : String × Int) : Bool := a.2 ≤ b.2

/-- `PDFLoader.organize_by_section`: an empty TOC yields no sections;
otherwise sort the TOC by page and build the sections. -/
def organize_by_section (toc_map : List (String × Int)) (content : List (List Char))
    (year model pdf_name : String) : List PDFSection :=
  if toc_map.isEmpty then []
  else sectionsOfSortedToc content year model pdf_name (sortLe tocLe toc_map)

/-- A drawing dict as produced by `extract_diagram_from_pdf` and consumed
by `map_drawings_to_sections`. -/
structure DrawingDict where
  drawing_id : String
  page_number : Int
  image_path : String
  x : Int
  y : Int
  w : Int
  h : Int
  model : String
  year : String
  source_pdf : String
deriving DecidableEq

/-- The match condition of `map_drawings_to_sections`: same model, year
and source PDF, and page number within the section page range. -/
def drawingMatches (s : PDFSection) (d : DrawingDict) : Bool :=
  d.model == s.model && d.year == s.year && d.source_pdf == s.source_pdf &&
    decide (s.start_page ≤ d.page_number) && decide (d.page_number ≤ s.end_page)

/-- The projection appended to `section.drawings` for a matching drawing. -/
def projDrawing (d : DrawingDict) : DrawingRef :=
  ⟨d.drawing_id, d.page_number, d.image_path, d.x, d.y, d.w, d.h⟩

/-- `PDFLoader.map_drawings_to_sections`: each section gets its
`drawings` reset and then receives every matching drawing, in input
order. -/
def map_drawings_to_sections (sections : List PDFSection) (drawings : List DrawingDict) :
    List PDFSection :=
  sections.map fun s =>
    { s with drawings := (drawings.filter (drawingMatches s)).map projDrawing }

/-! ### `nlp/chunking.py` -/

/-- The section dict shape read by `TextChunker._chunk_section`. -/
structure SectionData where
  heading : String
  start_page : Int
  end_page : Int
  text : List Char
  model : String
  year : String
  source_pdf : String
deriving DecidableEq

/-- `TextChunk` dataclass from `chunking.py`. -/
structure TextChunk where
  chunk_text : List Char
  heading : String
  start_page : Int
  end_page : Int
  model : String
  year : String
  source_pdf : String
  word_count : Nat
  sentence_count : Nat
  chunk_index : Nat
  total_chunks : Nat
deriving DecidableEq

/-- `TextChunker._create_chunk`: build a `TextChunk`, recomputing word and
sentence counts on the chunk text itself. -/
def createChunk (chunk_text : List Char) (sec : SectionData)
    (chunk_index total_chunks : Nat) : TextChunk :=
  { chunk_text := chunk_text
    heading := sec.heading
    start_page := sec.start_page
    end_page := sec.end_page
    model := sec.model
    year := sec.year
    source_pdf := sec.source_pdf
    word_count := (wordTokenize chunk_text).length
    sentence_count := (sentTokenize chunk_text).length
    chunk_index := chunk_index
    total_chunks := total_chunks }

/-- The sentence-boundary adjustment inside the window loop of
`_chunk_section`: when the window does not reach the end of the section
and its last sentence lacks a terminator, drop that incomplete trailing
sentence (when more than one sentence is present). -/
def adjustChunkText (chunk_text : List Char) (atEnd : Bool) : List Char :=
  if atEnd then chunk_text
  else
    let sents := sentTokenize chunk_text
    match sents.getLast? with
    | none => chunk_text
    | some last =>
      if (last.getLast?.elim false isSentenceEnd) then chunk_text
      else if 1 < sents.length then joinWords (sents.dropLast)
      else chunk_text

/-- The window loop of `_chunk_section` over the word list.  The loop
variable `start_idx` is represented by the remaining suffix
`rest = words[start_idx:]`; each iteration takes a window of `maxW`
words, applies the sentence-boundary adjustment, and advances by
`maxW - overlapW` words.  The Python loop does not terminate when
`max_words - overlap_words = 0`; the extra conjunct `overlapW < maxW`
in the guard makes the embedding total and matches the loop body
whenever the step is positive. -/
def chunkLoop (sec : SectionData) (maxW overlapW totalEst : Nat) :
    List (List Char) → Nat → List TextChunk
  | rest, chunk_index =>
    if _h : rest ≠ [] ∧ overlapW < maxW then
      let chunk_words := rest.take maxW
      let atEnd := rest.length ≤ maxW
      let chunk_text := adjustChunkText (joinWords chunk_words) atEnd
      createChunk chunk_text sec chunk_index totalEst ::
        chunkLoop sec maxW overlapW totalEst (rest.drop (maxW - overlapW)) (chunk_index + 1)
    else []
termination_by rest => rest.length
decreasing_by
  simp only [List.length_drop]
  have h1 : rest.length ≠ 0 := by
    intro hz
    exact _h.1 (List.length_eq_zero.mp hz)
  omega

/-- `TextChunker._chunk_section`: empty or whitespace-only text yields no
chunks (warning logged in the source); a section whose word count is
below `minChunk` yields a single whole-section chunk with index 0 and
total 1; otherwise the overlapping window loop runs with the
`total_chunks` estimate `ceil(word_count / maxW)`. -/
def chunkSection (sec : SectionData) (maxW overlapW minChunk : Nat) : List TextChunk :=
  if sec.text = [] ∨ trimChars sec.text = [] then []
  else
    let words := wordTokenize sec.text
    if words.length < minChunk then [createChunk sec.text sec 0 1]
    else chunkLoop sec maxW overlapW ((words.length + maxW - 1) / maxW) words 0

/-- `TextChunker.chunk`: chunk every section, concatenating the results;
a failing section contributes no chunks (the pure embedding never
raises, so each section simply contributes `chunkSection` of itself). -/
def chunkAll (sections : List SectionData) (maxW overlapW minChunk : Nat) : List TextChunk :=
  sections.flatMap (fun sec => chunkSection sec maxW overlapW minChunk)

/-! ### `Image_extraction/images_extract.py` -/

/-- A contour candidate as assembled by `_find_diagrams`: bounding
rectangle plus the contour area (`cv2.contourArea`, a float, modelled as
a rational). -/
structure Candidate where
  x : Int
  y : Int
  w : Int
  h : Int
  area : ℚ
deriving DecidableEq

/-- `DiagramInfo` dataclass from `images_extract.py`. -/
structure DiagramInfo where
  drawing_id : String
  x : Int
  y : Int
  width : Int
  height : Int
  page_number : Nat
  image_path : String
  model : String
  year : String
  source_pdf : String
deriving DecidableEq

/-- The filter of `_find_diagrams`: contour area above `min_area = 30000`
and aspect ratio `w / h` strictly inside `(0.5, 2.0)`.  The float ratio
of the source is modelled as the exact rational `w / h` (`h > 0` for any
real bounding rectangle). -/
def candKeep (c : Candidate) : Bool :=
  decide ((30000 : ℚ) < c.area) &&
    decide (mkRat 1 2 < mkRat c.w c.h.toNat) &&
    decide (mkRat c.w c.h.toNat < 2)

/-- A candidate region on a rendered page together with whether the
per-candidate extraction (`_extract_diagram`, which also saves the crop)
raises for it. -/
structure CandSpec where
  cand : Candidate
  extractFails : Bool
deriving DecidableEq

/-- `_find_diagrams`: keep candidates passing the area and aspect-ratio
filter and sort by area, largest first (`sorted(..., reverse=True)`,
a stable sort). -/
def findDiagrams (cands : List CandSpec) : List CandSpec :=
  sortLe (fun a b => decide (b.cand.area ≤ a.cand.area))
    (cands.filter (fun c => candKeep c.cand))

/-- `_extract_diagram` on an image of width `W` and height `H`: pad the
bounding box by `padding = 15` on all sides, clamped to the image
bounds, and record the padded box in the returned `DiagramInfo`. -/
def extractDiagram (W H : Int) (c : Candidate) (model year : String)
    (page_num count : Nat) : DiagramInfo :=
  let x_pad := max 0 (c.x - 15)
  let y_pad := max 0 (c.y - 15)
  let w_pad := min (W - x_pad) (c.w + 2 * 15)
  let h_pad := min (H - y_pad) (c.h + 2 * 15)
  let image_path := model ++ "/" ++ model ++ "_" ++ year ++ "_pg" ++
    toString page_num ++ "_" ++ toString count ++ ".png"
  { drawing_id := model ++ "_" ++ year ++ "_diagram_pg" ++ toString page_num ++
      "_" ++ toString count
    x := x_pad
    y := y_pad
    width := w_pad
    height := h_pad
    page_number := page_num
    image_path := image_path
    model := model
    year := year
    source_pdf := image_path }

/-- One rendered page of a document: either rendering or preprocessing
raises (`renderFail`), or it yields an image of the given size with its
contour candidates. -/
inductive PageSpec where
  | renderFail (msg : String)
  | rendered (W H : Int) (cands : List CandSpec)
deriving DecidableEq

/-- A page that renders and preprocesses without raising. -/
def PageSpec.isRendered : PageSpec → Prop
  | .renderFail _ => False
  | .rendered _ _ _ => True

/-- The per-page candidate loop of `extract_diagrams_from_pdf`: process
the found diagrams in order, numbering from 1; a candidate whose
extraction raises is logged and skipped. -/
def processPage (model year : String) (page_num : Nat) (W H : Int)
    (cands : List CandSpec) : List DiagramInfo :=
  (findDiagrams cands).enum.filterMap fun ic =>
    if ic.2.extractFails then none
    else some (extractDiagram W H ic.2.cand model year page_num (ic.1 + 1))

/-- The page loop of `extract_diagrams_from_pdf`: accumulate drawings
page by page; an exception while rendering or preprocessing a page
reaches the outer handler, which logs and re-raises, so the whole
document extraction fails and the accumulated drawings are lost. -/
def extractPages (model year : String) : Nat → List DiagramInfo → List PageSpec →
    Except String (List DiagramInfo)
  | _, acc, [] => Except.ok acc
  | n, acc, p :: rest =>
    match p with
    | PageSpec.renderFail msg => Except.error msg
    | PageSpec.rendered W H cands =>
      extractPages model year (n + 1) (acc ++ processPage model year n W H cands) rest

/-- `ImageExtractor.extract_diagrams_from_pdf` over an opened document
given as its list of pages (page numbers from `enumerate(doc)`). -/
def extract_diagrams_from_pdf (doc : List PageSpec) (model year : String) :
    Except String (List DiagramInfo) :=
  extractPages model year 0 [] doc

/-! ### `main.py` orchestration -/

/-- An entry of `ProcessingStats.errors`. -/
structure ErrEntry where
  file : String
  error : String
deriving DecidableEq

/-- `ProcessingStats` dataclass from `main.py` (`processing_time`, a
wall-clock float, is not modelled). -/
structure ProcessingStats where
  total_files : Nat := 0
  processed_files : Nat := 0
  failed_files : Nat := 0
  total_pages : Nat := 0
  total_drawings : Nat := 0
  errors : List ErrEntry := []
deriving DecidableEq

/-- Per-file outcome abstraction for the orchestrator: a file either
processes successfully with the given page count, family and mapped
drawings, or its per-file pipeline raises with the given message (before
the page-count update, e.g. while opening the document). -/
structure FileSpec where
  name : String
  pages : Nat
  family : String
  drawings : List String
  failure : Option String
deriving DecidableEq

/-- The per-document result assembled by `process_pdf` (fields not
needed by the claims are omitted). -/
structure PDFDocumentRec where
  family : String
  drawings : List String
  error : Option String
deriving DecidableEq

/-- The orchestrator state mutated by `process_batch`: the global
statistics and the family-to-drawings index (`grouped_family`, an
insertion-ordered dict modelled as an association list). -/
structure MotoState where
  stats : ProcessingStats
  grouped_family : List (String × List String)
deriving DecidableEq

/-- The initial orchestrator state (`ProcessingStats()` and an empty
`grouped_family`). -/
def initState : MotoState := ⟨{}, []⟩

/-- `MotoBot.process_pdf` on a cache miss: on success the page and
drawing totals are updated and a document without error is returned; an
exception anywhere in the per-file pipeline is captured, appended to
`stats.errors`, and converted into a document with a non-null `error`. -/
def processPdf (st : MotoState) (f : FileSpec) : MotoState × PDFDocumentRec :=
  match f.failure with
  | some msg =>
    ({ st with stats := { st.stats with
        errors := st.stats.errors ++ [⟨f.name, msg⟩] } },
     { family := "", drawings := [], error := some ("Error processing " ++ f.name ++ ": " ++ msg) })
  | none =>
    ({ st with stats := { st.stats with
        total_pages := st.stats.total_pages + f.pages,
        total_drawings := st.stats.total_drawings + f.drawings.length } },
     { family := f.family, drawings := f.drawings, error := none })

/-- `grouped_family` update in `process_batch`: extend the family entry,
inserting it on first use. -/
def addFam (gf : List (String × List String)) (fam : String) (ds : List String) :
    List (String × List String) :=
  if gf.any (fun kv => kv.1 == fam) then
    gf.map (fun kv => if kv.1 == fam then (kv.1, kv.2 ++ ds) else kv)
  else gf ++ [(fam, ds)]

/-- `MotoBot.process_batch`: for each file, count it, process it, and on
failure count `failed_files`, on success count `processed_files` and
extend `grouped_family` with the mapped drawings.  Note the Python
method returns `None`; its effect is the mutation of the `MotoBot`
instance it runs on. -/
def processBatch (files : List FileSpec) (st : MotoState) : MotoState :=
  files.foldl
    (fun st file =>
      let st1 : MotoState := { st with stats := { st.stats with
        total_files := st.stats.total_files + 1 } }
      let r := processPdf st1 file
      match r.2.error with
      | some _ =>
        { r.1 with stats := { r.1.stats with
            failed_files := r.1.stats.failed_files + 1 } }
      | none =>
        { r.1 with
            stats := { r.1.stats with
              processed_files := r.1.stats.processed_files + 1 },
            grouped_family := addFam r.1.grouped_family r.2.family r.2.drawings })
    st

/-- The batch split of `process_all_pdfs`
(`pdf_files[i : i + batch_size]` for `i` in steps of `batch_size`). -/
def batchChunks (k : Nat) (l : List FileSpec) : List (List FileSpec) :=
  if _h : l = [] then []
  else if hk : k = 0 then [l]
  else l.take k :: batchChunks k (l.drop k)
termination_by l.length
decreasing_by
  simp only [List.length_drop]
  have h1 : l.length ≠ 0 := fun hz => _h (List.length_eq_zero.mp hz)
  omega

/-- `MotoBot.process_all_pdfs`: split the corpus into batches and submit
`executor.submit(self.process_batch, batch)` to a
`ProcessPoolExecutor`.  Each worker process receives a pickled copy of
the orchestrator object and `process_batch` mutates that copy;
`process_batch` returns `None`, and the orchestrator only calls
`future.result()` and discards it.  The worker-side states are therefore
computed and dropped, and the orchestrator keeps its own state (only
`processing_time` is set afterwards, which is not modelled). -/
def processAllPdfs (files : List FileSpec) (batchSize : Nat) (st : MotoState) : MotoState :=
  let batches := batchChunks batchSize files
  let workerStates := batches.map (fun b => processBatch b st)
  let _ := workerStates
  st

/-! ### Concrete inputs for witnesses and counterexamples -/

/-- A corpus of three files, the second of which raises during per-file
processing. -/
def demoCorpus : List FileSpec :=
  [⟨"a.pdf", 2, "Monster", ["dA1"], none⟩,
   ⟨"b.pdf", 4, "", [], some "boom"⟩,
   ⟨"c.pdf", 3, "Diavel", ["dC1", "dC2"], none⟩]

/-- A page that renders fine, with one extractable candidate and one
candidate whose extraction raises. -/
def demoPage1 : PageSpec :=
  PageSpec.rendered 1000 1400
    [⟨⟨100, 100, 200, 200, 40000⟩, false⟩, ⟨⟨50, 50, 300, 250, 50000⟩, true⟩]

/-- A second page that renders fine with one extractable candidate. -/
def demoPage2 : PageSpec :=
  PageSpec.rendered 1000 1400 [⟨⟨100, 100, 200, 200, 40000⟩, false⟩]

/-! ## Helper lemmas -/

theorem wordTokAux_ne_nil (t : List Char) : ∀ acc, acc ≠ [] → wordTokAux t acc ≠ [] := by
  induction t with
  | nil =>
    intro acc h
    have hemp : acc.isEmpty = false := by simpa [List.isEmpty_iff] using h
    simp [wordTokAux, hemp]
  | cons c cs ih =>
    intro acc h
    have hemp : acc.isEmpty = false := by simpa [List.isEmpty_iff] using h
    simp only [wordTokAux, hemp]
    by_cases hc : c.isWhitespace
    · rw [if_pos hc, if_neg (by simp)]
      exact List.cons_ne_nil _ _
    · rw [if_neg hc]
      exact ih (c :: acc) (List.cons_ne_nil _ _)

theorem wordTokenize_eq_nil_iff (t : List Char) :
    wordTokenize t = [] ↔ ∀ c ∈ t, c.isWhitespace := by
  unfold wordTokenize
  induction t with
  | nil => simp [wordTokAux]
  | cons c cs ih =>
    simp only [wordTokAux, List.isEmpty_nil, if_true]
    by_cases hc : c.isWhitespace
    · rw [if_pos hc, ih]
      constructor
      · intro h x hx
        rcases List.mem_cons.mp hx with h1 | h1
        · exact h1 ▸ hc
        · exact h x h1
      · intro h x hx
        exact h x (List.mem_cons_of_mem _ hx)
    · rw [if_neg hc]
      constructor
      · intro h
        exact absurd h (wordTokAux_ne_nil cs [c] (List.cons_ne_nil _ _))
      · intro h
        exact absurd (h c (List.mem_cons_self _ _)) hc

theorem trimChars_eq_nil_of_all_ws (t : List Char) (h : ∀ c ∈ t, c.isWhitespace) :
    trimChars t = [] := by
  unfold trimChars
  have h1 : t.dropWhile Char.isWhitespace = [] := by
    rw [List.dropWhile_eq_nil_iff]
    exact h
  rw [h1]
  simp

theorem extractPages_ok_of_rendered (model year : String) :
    ∀ (doc : List PageSpec) (n : Nat) (acc : List DiagramInfo),
      (∀ p ∈ doc, p.isRendered) →
      ∃ l, extractPages model year n acc doc = Except.ok l := by
  intro doc
  induction doc with
  | nil =>
    intro n acc _
    exact ⟨acc, rfl⟩
  | cons p rest ih =>
    intro n acc hall
    have hp := hall p (List.mem_cons_self _ _)
    cases p with
    | renderFail msg => exact absurd hp (by simp [PageSpec.isRendered])
    | rendered W H cands =>
      simpa only [extractPages] using
        ih (n + 1) (acc ++ processPage model year n W H cands)
          (fun q hq => hall q (List.mem_cons_of_mem _ hq))

theorem extractPages_error_of_renderFail (model year msg : String) (post : List PageSpec) :
    ∀ (pre : List PageSpec) (n : Nat) (acc : List DiagramInfo),
      (∀ p ∈ pre, p.isRendered) →
      extractPages model year n acc (pre ++ PageSpec.renderFail msg :: post)
        = Except.error msg := by
  intro pre
  induction pre with
  | nil =>
    intro n acc _
    simp [extractPages]
  | cons p rest ih =>
    intro n acc hall
    have hp := hall p (List.mem_cons_self _ _)
    cases p with
    | renderFail m => exact absurd hp (by simp [PageSpec.isRendered])
    | rendered W H cands =>
      simp only [List.cons_append, extractPages]
      exact ih (n + 1) _ (fun q hq => hall q (List.mem_cons_of_mem _ hq))

theorem mem_insertLe (le : α → α → Bool) (a x : α) (l : List α) :
    x ∈ insertLe le a l ↔ x = a ∨ x ∈ l := by
  induction l with
  | nil => simp [insertLe]
  | cons b bs ih =>
    simp only [insertLe]
    split
    · simp [List.mem_cons]
    · rw [List.mem_cons, ih, List.mem_cons]
      tauto

theorem pairwise_insertLe (le : α → α → Bool)
    (htrans : ∀ x y z, le x y = true → le y z = true → le x z = true)
    (htot : ∀ x y, le x y = true ∨ le y x = true)
    (a : α) (l : List α) (hl : List.Pairwise (fun x y => le x y = true) l) :
    List.Pairwise (fun x y => le x y = true) (insertLe le a l) := by
  induction l with
  | nil => simp [insertLe]
  | cons b bs ih =>
    rcases List.pairwise_cons.mp hl with ⟨hb, hbs⟩
    simp only [insertLe]
    split
    · rename_i hab
      refine List.pairwise_cons.mpr ⟨?_, hl⟩
      intro x hx
      rcases List.mem_cons.mp hx with h1 | h1
      · exact h1 ▸ hab
      · exact htrans a b x hab (hb x h1)
    · rename_i hab
      have hba : le b a = true := by
        rcases htot a b with h1 | h1
        · exact absurd h1 hab
        · exact h1
      refine List.pairwise_cons.mpr ⟨?_, ih hbs⟩
      intro x hx
      rcases (mem_insertLe le a x bs).mp hx with h1 | h1
      · exact h1 ▸ hba
      · exact hb x h1

theorem pairwise_sortLe (le : α → α → Bool)
    (htrans : ∀ x y z, le x y = true → le y z = true → le x z = true)
    (htot : ∀ x y, le x y = true ∨ le y x = true)
    (l : List α) : List.Pairwise (fun x y => le x y = true) (sortLe le l) := by
  induction l with
  | nil => simp [sortLe]
  | cons a as ih => exact pairwise_insertLe le htrans htot a _ ih

theorem insertLe_perm (le : α → α → Bool) (a : α) (l : List α) :
    (insertLe le a l).Perm (a :: l) := by
  induction l with
  | nil => exact List.Perm.refl _
  | cons b bs ih =>
    simp only [insertLe]
    split
    · exact List.Perm.refl _
    · exact (ih.cons b).trans (List.Perm.swap a b bs)

theorem sortLe_perm (le : α → α → Bool) (l : List α) : (sortLe le l).Perm l := by
  induction l with
  | nil => exact List.Perm.refl _
  | cons a as ih =>
    simp only [sortLe]
    exact (insertLe_perm le a (sortLe le as)).trans (ih.cons a)

theorem div_step_bound (L s : Nat) (hs : 0 < s) (hL : 1 ≤ L) :
    (L - s + s - 1) / s + 1 ≤ (L + s - 1) / s := by
  rcases le_or_lt L s with hle | hlt
  · have h1 : L - s = 0 := Nat.sub_eq_zero_of_le hle
    rw [h1]
    have h2 : (0 + s - 1) / s = 0 := Nat.div_eq_of_lt (by omega)
    rw [h2]
    have h3 : s ≤ L + s - 1 := by omega
    have h4 : 1 ≤ (L + s - 1) / s := (Nat.one_le_div_iff hs).mpr h3
    omega
  · have h1 : L - s + s - 1 = L - 1 := by omega
    have h2 : L + s - 1 = (L - 1) + s := by omega
    rw [h1, h2, Nat.add_div_right _ hs]

theorem chunkLoop_length_le (sec : SectionData) (maxW overlapW totalEst : Nat)
    (h : overlapW < maxW) :
    ∀ (rest : List (List Char)) (idx : Nat),
      (chunkLoop sec maxW overlapW totalEst rest idx).length
        ≤ (rest.length + (maxW - overlapW) - 1) / (maxW - overlapW) := by
  have hs : 0 < maxW - overlapW := by omega
  suffices H : ∀ (n : Nat) (rest : List (List Char)) (idx : Nat), rest.length ≤ n →
      (chunkLoop sec maxW overlapW totalEst rest idx).length
        ≤ (rest.length + (maxW - overlapW) - 1) / (maxW - overlapW) by
    exact fun rest idx => H rest.length rest idx le_rfl
  intro n
  induction n with
  | zero =>
    intro rest idx hlen
    have hr : rest = [] := List.length_eq_zero.mp (Nat.le_zero.mp hlen)
    subst hr
    rw [chunkLoop]
    simp
  | succ n ih =>
    intro rest idx hlen
    rw [chunkLoop]
    split
    · rename_i hcond
      have hr : 1 ≤ rest.length := by
        rcases rest with _ | ⟨w, ws⟩
        · exact absurd rfl hcond.1
        · simp
      simp only [List.length_cons]
      have h2 := ih (rest.drop (maxW - overlapW)) (idx + 1)
        (by rw [List.length_drop]; omega)
      rw [List.length_drop] at h2
      calc (chunkLoop sec maxW overlapW totalEst
              (rest.drop (maxW - overlapW)) (idx + 1)).length + 1
          ≤ (rest.length - (maxW - overlapW) + (maxW - overlapW) - 1) / (maxW - overlapW) + 1 := by
            omega
        _ ≤ (rest.length + (maxW - overlapW) - 1) / (maxW - overlapW) :=
            div_step_bound rest.length (maxW - overlapW) hs hr
    · simp

/-! ## Claims -/

/-- C1 (code bug): the spec requires the per-batch statistics accumulated
inside each worker to be merged back into the orchestrator global
`ProcessingStats` after each batch completes, yielding
`processed_files = n - k` and `failed_files = k` with the failed file in
`errors` and the successful drawings in the family index.  Inside a
worker the batch-local state indeed reaches those values (second half of
the conjunction), but `process_batch` runs on a pickled copy of the
orchestrator in a `ProcessPoolExecutor` worker and returns `None`, and
`process_all_pdfs` discards `future.result()`, so the orchestrator
global state keeps `processed_files = 0`, `failed_files = 0`, no errors
and an empty family index. -/
theorem process_all_pdfs_stats_lost :
    (processAllPdfs demoCorpus 32 initState).stats.processed_files = 0
    ∧ (processAllPdfs demoCorpus 32 initState).stats.failed_files = 0
    ∧ (processAllPdfs demoCorpus 32 initState).stats.total_files = 0
    ∧ (processAllPdfs demoCorpus 32 initState).stats.errors = []
    ∧ (processAllPdfs demoCorpus 32 initState).grouped_family = []
    ∧ (processBatch demoCorpus initState).stats.processed_files = 2
    ∧ (processBatch demoCorpus initState).stats.failed_files = 1
    ∧ (processBatch demoCorpus initState).stats.total_files = 3
    ∧ (processBatch demoCorpus initState).stats.errors = [⟨"b.pdf", "boom"⟩]
    ∧ (processBatch demoCorpus initState).grouped_family
        = [("Monster", ["dA1"]), ("Diavel", ["dC1", "dC2"])] := by
  refine ⟨rfl, rfl, rfl, rfl, rfl, ?_, ?_, ?_, ?_, ?_⟩ <;> decide

/-- C3 counterexample: a document whose second page fails to render does
not continue with the third page; the whole extraction propagates the
error, whereas the same pages without the failing one yield two
diagrams. -/
theorem extract_diagrams_page_failure_cex :
    extract_diagrams_from_pdf [demoPage1, PageSpec.renderFail "boom", demoPage2] "m" "y"
      = Except.error "boom"
    ∧ (extract_diagrams_from_pdf [demoPage1, demoPage2] "m" "y").toOption.map List.length
      = some 2 := by
  exact ⟨rfl, rfl⟩

/-- C3 (amended): a failure extracting a single candidate is skipped
without aborting the page or the document (a document whose pages all
render yields a result, whatever the per-candidate failures); but a
failure rendering or preprocessing any one page aborts the whole
document extraction and propagates, it is not limited to that page. -/
theorem extract_diagrams_failure_semantics (model year : String) :
    (∀ doc : List PageSpec, (∀ p ∈ doc, p.isRendered) →
      ∃ l, extract_diagrams_from_pdf doc model year = Except.ok l)
    ∧ (∀ (pre post : List PageSpec) (msg : String), (∀ p ∈ pre, p.isRendered) →
      extract_diagrams_from_pdf (pre ++ PageSpec.renderFail msg :: post) model year
        = Except.error msg) := by
  constructor
  · intro doc h
    exact extractPages_ok_of_rendered model year doc 0 [] h
  · intro pre post msg h
    exact extractPages_error_of_renderFail model year msg post pre 0 [] h

/-- C3 witness: the amended failure semantics applied at concrete
documents. -/
theorem extract_diagrams_failure_semantics_witness :
    (∃ l, extract_diagrams_from_pdf [demoPage1] "m" "y" = Except.ok l)
    ∧ extract_diagrams_from_pdf (PageSpec.renderFail "crash" :: [demoPage2]) "m" "y"
        = Except.error "crash" := by
  constructor
  · exact (extract_diagrams_failure_semantics "m" "y").1 [demoPage1]
      (by intro p hp; rw [List.mem_singleton] at hp; subst hp; simp [demoPage1, PageSpec.isRendered])
  · exact (extract_diagrams_failure_semantics "m" "y").2 [] [demoPage2] "crash"
      (by intro p hp; simp at hp)

/-- C4 counterexample: the filename contains the family token `Off-Road`
and the year token `MY20`, but the cleanup step strips the separator
`-`, so the family scan fails and `extract_metadata` returns no family
and no year instead of family `Off-Road` and year `2020`. -/
theorem extract_metadata_family_cex :
    containsTok "Off-Road".toList "Off-RoadMY20.pdf".toList = true
    ∧ findMY "Off-RoadMY20.pdf".toList = some ('2', '0')
    ∧ (extract_metadata "Off-RoadMY20.pdf".toList).family = none
    ∧ (extract_metadata "Off-RoadMY20.pdf".toList).year = none := by
  refine ⟨?_, ?_, ?_, ?_⟩ <;> decide

/-- C4 (amended): for every filename whose cleaned form (after stripping
the ordered cleanup tokens) contains a known family token and an `MYxx`
token, `extract_metadata` returns the first family of the fixed ordered
list that is a substring of the cleaned name, and year `19xx` when
`xx > 50`, else `20xx`, where `xx` is the leftmost `MYxx` occurrence in
the cleaned name. -/
theorem extract_metadata_family_year (name fam : List Char) (a b : Char)
    (hf : findFamily (trimChars (applyCleanup name)) = some fam)
    (hy : findMY (trimChars (applyCleanup name)) = some (a, b)) :
    (extract_metadata name).family = some fam
    ∧ (extract_metadata name).year =
        some (if 50 < 10 * digitVal a + digitVal b then '1' :: '9' :: [a, b]
          else '2' :: '0' :: [a, b]) := by
  simp only [extract_metadata, hf, hy]
  exact ⟨trivial, rfl⟩

/-- C4 witness: the spec example filename yields family `Monster` and
year `2023`. -/
theorem extract_metadata_family_year_witness :
    (extract_metadata "DucatiMonsterMY23OM_EN.pdf".toList).family = some "Monster".toList
    ∧ (extract_metadata "DucatiMonsterMY23OM_EN.pdf".toList).year = some "2023".toList := by
  have h := extract_metadata_family_year "DucatiMonsterMY23OM_EN.pdf".toList
    "Monster".toList '2' '3' (by decide) (by decide)
  refine ⟨h.1, ?_⟩
  rw [h.2]
  decide

/-- C6 counterexample: a section with empty text has word count
`0 < min_chunk_size = 5`, yet `_chunk_section` returns zero chunks, not
the single whole-section chunk the claim requires. -/
theorem chunk_section_small_cex :
    (wordTokenize (⟨"h", 1, 2, [], "m", "y", "s"⟩ : SectionData).text).length < 5
    ∧ chunkSection ⟨"h", 1, 2, [], "m", "y", "s"⟩ 200 50 5 = [] := by
  exact ⟨by decide, by decide⟩

/-- C6 (amended): for every section whose text is nonempty and not
whitespace-only and whose word count is below `min_chunk_size`,
`_chunk_section` returns exactly one chunk whose text is the section
text verbatim, with `chunk_index = 0` and `total_chunks = 1`. -/
theorem chunk_section_small_section (sec : SectionData) (maxW overlapW minChunk : Nat)
    (hne : ¬(sec.text = [] ∨ trimChars sec.text = []))
    (hsmall : (wordTokenize sec.text).length < minChunk) :
    chunkSection sec maxW overlapW minChunk = [createChunk sec.text sec 0 1]
    ∧ ∀ c ∈ chunkSection sec maxW overlapW minChunk,
        c.chunk_text = sec.text ∧ c.chunk_index = 0 ∧ c.total_chunks = 1 := by
  have h1 : chunkSection sec maxW overlapW minChunk = [createChunk sec.text sec 0 1] := by
    unfold chunkSection
    rw [if_neg hne, if_pos hsmall]
  refine ⟨h1, ?_⟩
  intro c hc
  rw [h1, List.mem_singleton] at hc
  subst hc
  exact ⟨rfl, rfl, rfl⟩

/-- C6 witness: a three-word section with `min_chunk_size = 5` yields the
single verbatim chunk. -/
theorem chunk_section_small_section_witness :
    chunkSection ⟨"h", 1, 2, "one two three".toList, "m", "y", "s"⟩ 200 50 5
      = [createChunk "one two three".toList
          ⟨"h", 1, 2, "one two three".toList, "m", "y", "s"⟩ 0 1] :=
  (chunk_section_small_section _ 200 50 5 (by decide) (by decide)).1

/-- C10: a section whose text is empty or whitespace-only contributes
zero chunks (and its word count is 0), even though that count is below
any `min_chunk_size`. -/
theorem chunk_section_ws_yields_no_chunks (sec : SectionData) (maxW overlapW minChunk : Nat)
    (h : ∀ c ∈ sec.text, c.isWhitespace) :
    chunkSection sec maxW overlapW minChunk = [] ∧ wordTokenize sec.text = [] := by
  have ht : trimChars sec.text = [] := trimChars_eq_nil_of_all_ws _ h
  refine ⟨?_, (wordTokenize_eq_nil_iff _).mpr h⟩
  unfold chunkSection
  rw [if_pos (Or.inr ht)]

/-- C10 witness: a whitespace-only section yields no chunks. -/
theorem chunk_section_ws_yields_no_chunks_witness :
    chunkSection ⟨"h", 1, 2, "   ".toList, "m", "y", "s"⟩ 200 50 5 = [] :=
  (chunk_section_ws_yields_no_chunks _ 200 50 5 (by decide)).1

/-- C8: `_extract_diagram` records the bounding box padded by 15 px on
all sides clamped to the image bounds, so the recorded crop satisfies
`x + width ≤ W` and `y + height ≤ H`; and `_find_diagrams` orders the
surviving candidates by contour area, descending, which is the order the
extraction loop processes them in. -/
theorem extract_diagram_padding_sorted (W H : Int) (c : Candidate) (model year : String)
    (page_num count : Nat) (cands : List CandSpec) :
    ((extractDiagram W H c model year page_num count).x = max 0 (c.x - 15)
     ∧ (extractDiagram W H c model year page_num count).y = max 0 (c.y - 15)
     ∧ (extractDiagram W H c model year page_num count).width
         = min (W - max 0 (c.x - 15)) (c.w + 30)
     ∧ (extractDiagram W H c model year page_num count).height
         = min (H - max 0 (c.y - 15)) (c.h + 30)
     ∧ (extractDiagram W H c model year page_num count).x
         + (extractDiagram W H c model year page_num count).width ≤ W
     ∧ (extractDiagram W H c model year page_num count).y
         + (extractDiagram W H c model year page_num count).height ≤ H)
    ∧ List.Pairwise (fun a b => b.cand.area ≤ a.cand.area) (findDiagrams cands) := by
  constructor
  · refine ⟨rfl, rfl, by norm_num [extractDiagram], by norm_num [extractDiagram], ?_, ?_⟩
    · show max 0 (c.x - 15) + min (W - max 0 (c.x - 15)) (c.w + 2 * 15) ≤ W
      omega
    · show max 0 (c.y - 15) + min (H - max 0 (c.y - 15)) (c.h + 2 * 15) ≤ H
      omega
  · have hs := pairwise_sortLe (fun a b : CandSpec => decide (b.cand.area ≤ a.cand.area))
      (fun x y z h1 h2 =>
        decide_eq_true (le_trans (of_decide_eq_true h2) (of_decide_eq_true h1)))
      (fun x y => by
        rcases le_total y.cand.area x.cand.area with h1 | h1
        · exact Or.inl (decide_eq_true h1)
        · exact Or.inr (decide_eq_true h1))
      (cands.filter (fun cd => candKeep cd.cand))
    exact hs.imp (fun h1 => of_decide_eq_true h1)

/-- C9: when `overlap_words < max_words`, the window loop of
`_chunk_section` advances its start index by the positive constant
`max_words - overlap_words` each iteration, so it terminates (the
embedding is total on this parameter region) and emits at most
`ceil(word_count / (max_words - overlap_words))` chunks. -/
theorem chunk_section_count_bound (sec : SectionData) (maxW overlapW minChunk : Nat)
    (h : overlapW < maxW) :
    (chunkSection sec maxW overlapW minChunk).length
      ≤ ((wordTokenize sec.text).length + (maxW - overlapW) - 1) / (maxW - overlapW) := by
  have hs : 0 < maxW - overlapW := by omega
  unfold chunkSection
  split
  · simp
  · rename_i hne
    show (if (wordTokenize sec.text).length < minChunk then [createChunk sec.text sec 0 1]
        else chunkLoop sec maxW overlapW
          (((wordTokenize sec.text).length + maxW - 1) / maxW) (wordTokenize sec.text) 0).length
      ≤ ((wordTokenize sec.text).length + (maxW - overlapW) - 1) / (maxW - overlapW)
    split
    · rename_i hsmall
      simp only [List.length_singleton]
      have hw : wordTokenize sec.text ≠ [] := by
        intro hz
        exact hne (Or.inr (trimChars_eq_nil_of_all_ws _ ((wordTokenize_eq_nil_iff _).mp hz)))
      have h1 : 1 ≤ (wordTokenize sec.text).length := by
        rcases hzz : wordTokenize sec.text with _ | ⟨w, ws⟩
        · exact absurd hzz hw
        · simp
      exact (Nat.one_le_div_iff hs).mpr (by omega)
    · exact chunkLoop_length_le sec maxW overlapW _ h _ 0

/-- C9 witness: a ten-word section chunked with `max_words = 4`,
`overlap_words = 1` emits at most `ceil(10 / 3) = 4` chunks. -/
theorem chunk_section_count_bound_witness :
    (chunkSection ⟨"h", 1, 2, "w1 w2 w3 w4 w5 w6 w7 w8 w9 w10.".toList, "m", "y", "s"⟩
        4 1 2).length
      ≤ ((wordTokenize "w1 w2 w3 w4 w5 w6 w7 w8 w9 w10.".toList).length + (4 - 1) - 1)
          / (4 - 1) :=
  chunk_section_count_bound _ 4 1 2 (by omega)

theorem drawingMatches_range (s : PDFSection) (d : DrawingDict)
    (h : drawingMatches s d = true) :
    s.start_page ≤ d.page_number ∧ d.page_number ≤ s.end_page := by
  simp only [drawingMatches, Bool.and_eq_true, decide_eq_true_eq] at h
  exact ⟨h.1.2, h.2⟩

theorem drawingMatches_triple (s : PDFSection) (d : DrawingDict)
    (h : drawingMatches s d = true) :
    d.model = s.model ∧ d.year = s.year ∧ d.source_pdf = s.source_pdf := by
  simp only [drawingMatches, Bool.and_eq_true, decide_eq_true_eq, beq_iff_eq] at h
  exact ⟨h.1.1.1.1, h.1.1.1.2, h.1.1.2⟩

theorem countP_map_drawings (sections : List PDFSection) (drawings : List DrawingDict)
    (d : DrawingDict) :
    (map_drawings_to_sections sections drawings).countP (fun s => drawingMatches s d)
      = sections.countP (fun s => drawingMatches s d) := by
  unfold map_drawings_to_sections
  rw [List.countP_map]
  induction sections with
  | nil => rfl
  | cons s rest ih =>
    rw [List.countP_cons, List.countP_cons, ih]
    exact rfl

/-- C5: over sections with pairwise non-overlapping page ranges (as
segmentation produces), `map_drawings_to_sections` attaches each drawing
to at most one section; a drawing whose page lies outside every section
range, or whose (model, year, source_pdf) triple matches no section, is
attached to none; and a matching drawing from the input list does appear
in that section's `drawings`. -/
theorem map_drawings_at_most_one (sections : List PDFSection) (drawings : List DrawingDict)
    (hdisj : List.Pairwise (fun s1 s2 => ∀ q : Int,
      ¬(s1.start_page ≤ q ∧ q ≤ s1.end_page ∧ s2.start_page ≤ q ∧ q ≤ s2.end_page)) sections)
    (d : DrawingDict) :
    ((map_drawings_to_sections sections drawings).countP (fun s => drawingMatches s d) ≤ 1)
    ∧ ((∀ s ∈ sections, ¬(s.start_page ≤ d.page_number ∧ d.page_number ≤ s.end_page)) →
        (map_drawings_to_sections sections drawings).countP (fun s => drawingMatches s d) = 0)
    ∧ ((∀ s ∈ sections, ¬(d.model = s.model ∧ d.year = s.year ∧ d.source_pdf = s.source_pdf)) →
        (map_drawings_to_sections sections drawings).countP (fun s => drawingMatches s d) = 0)
    ∧ (∀ t ∈ map_drawings_to_sections sections drawings, drawingMatches t d = true →
        d ∈ drawings → projDrawing d ∈ t.drawings) := by
  rw [countP_map_drawings]
  refine ⟨?_, ?_, ?_, ?_⟩
  · clear drawings
    induction sections with
    | nil => simp
    | cons s rest ih =>
      rcases List.pairwise_cons.mp hdisj with ⟨hhead, htail⟩
      rw [List.countP_cons]
      by_cases hm : drawingMatches s d = true
      · have hzero : rest.countP (fun s2 => drawingMatches s2 d) = 0 := by
          rw [List.countP_eq_zero]
          intro s2 hs2 hm2
          rcases drawingMatches_range s d hm with ⟨h1, h2⟩
          rcases drawingMatches_range s2 d hm2 with ⟨h3, h4⟩
          exact hhead s2 hs2 d.page_number ⟨h1, h2, h3, h4⟩
        rw [hzero, hm]
        simp
      · have : (if drawingMatches s d = true then 1 else 0) = 0 := if_neg hm
        rw [this]
        simpa using ih htail
  · intro hout
    rw [List.countP_eq_zero]
    intro s hs hm
    exact hout s hs (drawingMatches_range s d hm)
  · intro hout
    rw [List.countP_eq_zero]
    intro s hs hm
    exact hout s hs (drawingMatches_triple s d hm)
  · intro t ht hm hd
    unfold map_drawings_to_sections at ht
    rcases List.mem_map.mp ht with ⟨s, hs, rfl⟩
    show projDrawing d ∈ (drawings.filter (drawingMatches s)).map projDrawing
    apply List.mem_map_of_mem
    rw [List.mem_filter]
    exact ⟨hd, hm⟩

theorem sectionsOfSortedToc_bounds (content : List (List Char)) (y m p : String) :
    ∀ (toc : List (String × Int)) (sec : PDFSection),
      sec ∈ sectionsOfSortedToc content y m p toc →
      1 ≤ sec.start_page ∧ sec.end_page ≤ (content.length : Int)
        ∧ ∃ e ∈ toc, sec.start_page = e.2 := by
  intro toc
  induction toc with
  | nil =>
    intro sec h
    simp [sectionsOfSortedToc] at h
  | cons hd rest ih =>
    rcases hd with ⟨hh, hs⟩
    intro sec hmem
    simp only [sectionsOfSortedToc] at hmem
    split at hmem
    · rcases ih sec hmem with ⟨h1, h2, e, he, h3⟩
      exact ⟨h1, h2, e, List.mem_cons_of_mem _ he, h3⟩
    · rename_i hval
      push_neg at hval
      rcases List.mem_cons.mp hmem with h1 | h1
      · subst h1
        refine ⟨?_, ?_, (hh, hs), List.mem_cons_self _ _, rfl⟩
        · show (1 : Int) ≤ hs
          omega
        · show tocEndPage (content.length : Int) rest ≤ (content.length : Int)
          omega
      · rcases ih sec h1 with ⟨h2, h3, e, he, h4⟩
        exact ⟨h2, h3, e, List.mem_cons_of_mem _ he, h4⟩

theorem sectionsOfSortedToc_sep (content : List (List Char)) (y m p : String) :
    ∀ toc : List (String × Int), List.Pairwise (fun a b => a.2 ≤ b.2) toc →
      List.Pairwise (fun s1 s2 => s1.end_page < s2.start_page)
        (sectionsOfSortedToc content y m p toc) := by
  intro toc
  induction toc with
  | nil =>
    intro _
    simp [sectionsOfSortedToc]
  | cons hd rest ih =>
    rcases hd with ⟨hh, hs⟩
    intro hp
    rcases List.pairwise_cons.mp hp with ⟨hhead, htail⟩
    simp only [sectionsOfSortedToc]
    split
    · exact ih htail
    · refine List.pairwise_cons.mpr ⟨?_, ih htail⟩
      intro s2 hs2
      rcases sectionsOfSortedToc_bounds content y m p rest s2 hs2 with ⟨_, _, e, he, heq⟩
      show tocEndPage (content.length : Int) rest < s2.start_page
      rw [heq]
      rcases rest with _ | ⟨⟨eh, es⟩, r2⟩
      · simp at he
      · show es - 1 < e.2
        rcases List.mem_cons.mp he with h1 | h1
        · rw [h1]
          omega
        · have h2 := (List.pairwise_cons.mp htail).1 e h1
          omega

theorem sectionsOfSortedToc_ne_nil (content : List (List Char)) (y m p : String) :
    ∀ toc : List (String × Int), toc ≠ [] → (∀ e ∈ toc, 1 ≤ e.2) →
      sectionsOfSortedToc content y m p toc ≠ [] := by
  intro toc
  induction toc with
  | nil =>
    intro h _
    exact absurd rfl h
  | cons hd rest ih =>
    rcases hd with ⟨hh, hs⟩
    intro _ hall
    simp only [sectionsOfSortedToc]
    rcases rest with _ | ⟨e2, r2⟩
    · rw [if_neg ?_]
      · exact List.cons_ne_nil _ _
      · push_neg
        have h1 := hall (hh, hs) (List.mem_cons_self _ _)
        constructor
        · omega
        · show tocEndPage (content.length : Int) [] ≤ (content.length : Int)
          exact le_refl _
    · split
      · exact ih (List.cons_ne_nil _ _) (fun e he => hall e (List.mem_cons_of_mem _ he))
      · exact List.cons_ne_nil _ _

theorem sectionsOfSortedToc_getLast (content : List (List Char)) (y m p : String) :
    ∀ toc : List (String × Int), List.Pairwise (fun a b => a.2 ≤ b.2) toc →
      ∀ last, (sectionsOfSortedToc content y m p toc).getLast? = some last →
        last.end_page = (content.length : Int) := by
  intro toc
  induction toc with
  | nil =>
    intro _ last h
    simp [sectionsOfSortedToc] at h
  | cons hd rest ih =>
    rcases hd with ⟨hh, hs⟩
    intro hp last hlast
    rcases List.pairwise_cons.mp hp with ⟨hhead, htail⟩
    simp only [sectionsOfSortedToc] at hlast
    rcases hrest : rest with _ | ⟨⟨eh, es⟩, r2⟩
    · subst hrest
      split at hlast
      · simp [sectionsOfSortedToc] at hlast
      · simp only [sectionsOfSortedToc, List.getLast?_singleton, Option.some_inj] at hlast
        rw [← hlast]
        exact rfl
    · subst hrest
      split at hlast
      · exact ih htail last hlast
      · rename_i hval
        push_neg at hval
        have hall : ∀ e ∈ (eh, es) :: r2, 1 ≤ e.2 := by
          intro e he
          have h1 := hhead e he
          omega
        have hne := sectionsOfSortedToc_ne_nil content y m p ((eh, es) :: r2)
          (List.cons_ne_nil _ _) hall
        rcases hts : sectionsOfSortedToc content y m p ((eh, es) :: r2) with _ | ⟨t0, ts⟩
        · exact absurd hts hne
        · rw [hts, List.getLast?_cons_cons] at hlast
          exact ih htail last (by rw [hts]; exact hlast)

theorem sectionsOfSortedToc_length_le (content : List (List Char)) (y m p : String) :
    ∀ toc : List (String × Int),
      (sectionsOfSortedToc content y m p toc).length ≤ toc.length := by
  intro toc
  induction toc with
  | nil => simp [sectionsOfSortedToc]
  | cons hd rest ih =>
    rcases hd with ⟨hh, hs⟩
    simp only [sectionsOfSortedToc]
    split
    · exact le_trans ih (Nat.le_succ _)
    · simpa using ih

theorem sectionsOfSortedToc_nodrop (content : List (List Char)) (y m p : String) :
    ∀ toc : List (String × Int),
      (sectionsOfSortedToc content y m p toc).length = toc.length →
      List.Chain' (fun s1 s2 => s1.end_page + 1 = s2.start_page)
        (sectionsOfSortedToc content y m p toc)
      ∧ ∀ s0, (sectionsOfSortedToc content y m p toc).head? = some s0 →
          ∃ e, toc.head? = some e ∧ s0.start_page = e.2 := by
  intro toc
  induction toc with
  | nil =>
    intro _
    constructor
    · simp [sectionsOfSortedToc]
    · intro s0 h
      simp [sectionsOfSortedToc] at h
  | cons hd rest ih =>
    rcases hd with ⟨hh, hs⟩
    intro hlen
    simp only [sectionsOfSortedToc] at hlen ⊢
    split at hlen
    · exfalso
      have h1 := sectionsOfSortedToc_length_le content y m p rest
      simp only [List.length_cons] at hlen
      omega
    · rename_i hval
      simp only [List.length_cons, Nat.succ_inj] at hlen
      rcases ih hlen with ⟨hchain, hhead⟩
      rw [if_neg hval]
      constructor
      · rcases hts : sectionsOfSortedToc content y m p rest with _ | ⟨t0, ts⟩
        · simp
        · rw [hts] at hchain
          refine List.chain'_cons.mpr ⟨?_, hchain⟩
          rcases hhead t0 (by rw [hts]; rfl) with ⟨e, he, heq⟩
          rcases rest with _ | ⟨⟨eh, es⟩, r2⟩
          · simp [sectionsOfSortedToc] at hts
          · simp only [List.head?_cons, Option.some_inj] at he
            subst he
            show tocEndPage (content.length : Int) ((eh, es) :: r2) + 1 = t0.start_page
            rw [heq]
            show es - 1 + 1 = es
            omega
      · intro s0 hs0
        simp only [List.head?_cons, Option.some_inj] at hs0
        refine ⟨(hh, hs), rfl, ?_⟩
        rw [← hs0]

theorem sectionsOfSortedToc_start_le_end (content : List (List Char)) (y m p : String) :
    ∀ toc : List (String × Int), List.Pairwise (fun a b => a.2 < b.2) toc →
      (∀ e ∈ toc, e.2 ≤ (content.length : Int)) →
      ∀ sec ∈ sectionsOfSortedToc content y m p toc,
        sec.start_page ≤ sec.end_page := by
  intro toc
  induction toc with
  | nil =>
    intro _ _ sec h
    simp [sectionsOfSortedToc] at h
  | cons hd rest ih =>
    rcases hd with ⟨hh, hs⟩
    intro hp hle sec hmem
    rcases List.pairwise_cons.mp hp with ⟨hhead, htail⟩
    simp only [sectionsOfSortedToc] at hmem
    split at hmem
    · exact ih htail (fun e he => hle e (List.mem_cons_of_mem _ he)) sec hmem
    · rcases List.mem_cons.mp hmem with h1 | h1
      · subst h1
        show hs ≤ tocEndPage (content.length : Int) rest
        rcases rest with _ | ⟨⟨eh, es⟩, r2⟩
        · exact hle (hh, hs) (List.mem_cons_self _ _)
        · show hs ≤ es - 1
          have h2 := hhead (eh, es) (List.mem_cons_self _ _)
          omega
      · exact ih htail (fun e he => hle e (List.mem_cons_of_mem _ he)) sec h1

theorem sortLe_toc_sorted (toc_map : List (String × Int)) :
    List.Pairwise (fun a b : String × Int => a.2 ≤ b.2) (sortLe tocLe toc_map) := by
  have h := pairwise_sortLe tocLe
    (fun x y z h1 h2 => by
      simp only [tocLe, decide_eq_true_eq] at h1 h2 ⊢
      omega)
    (fun x y => by
      simp only [tocLe]
      rcases le_total x.2 y.2 with h1 | h1
      · exact Or.inl (decide_eq_true h1)
      · exact Or.inr (decide_eq_true h1))
    toc_map
  exact h.imp (fun h1 => by simpa [tocLe, decide_eq_true_eq] using h1)

/-- C2 counterexample: with five pages and sorted TOC start pages
1, 2, 10, 20, the middle entries are dropped by validation and the
retained sections are (1, 1) and (20, 5); the first retained section's
end page 1 does not equal the next retained section's start page minus
one (19), so the adjacency equation of the claim fails. -/
theorem organize_by_section_adjacency_cex :
    ((organize_by_section [("A", 1), ("B", 2), ("C", 10), ("D", 20)]
        [[], [], [], [], []] "y" "m" "s").map (fun s => (s.start_page, s.end_page)))
      = [(1, 1), (20, 5)]
    ∧ ¬ List.Chain' (fun s1 s2 => s1.end_page + 1 = s2.start_page)
        (organize_by_section [("A", 1), ("B", 2), ("C", 10), ("D", 20)]
          [[], [], [], [], []] "y" "m" "s") := by
  refine ⟨by decide, ?_⟩
  intro hch
  have hres : organize_by_section [("A", 1), ("B", 2), ("C", 10), ("D", 20)]
      [[], [], [], [], []] "y" "m" "s"
      = [⟨"A", 1, 1, [], "m", "y", "s", []⟩, ⟨"D", 20, 5, [], "m", "y", "s", []⟩] := by
    decide
  rw [hres, List.chain'_pair] at hch
  have h2 : (1 : Int) + 1 = 20 := hch
  omega

/-- C2 (amended): `organize_by_section` always returns sections whose
page ranges are pairwise non-overlapping, and whose last section ends at
the page count; the adjacency `end_page = next start_page - 1` between
consecutive returned sections holds whenever no TOC entry was dropped by
the page-range validation (a dropped entry is skipped with a warning,
not fatal, but it breaks adjacency between its retained neighbours). -/
theorem organize_by_section_page_ranges (toc_map : List (String × Int))
    (content : List (List Char)) (y m p : String) :
    List.Pairwise (fun s1 s2 => ∀ q : Int,
        ¬(s1.start_page ≤ q ∧ q ≤ s1.end_page ∧ s2.start_page ≤ q ∧ q ≤ s2.end_page))
      (organize_by_section toc_map content y m p)
    ∧ (∀ last, (organize_by_section toc_map content y m p).getLast? = some last →
        last.end_page = (content.length : Int))
    ∧ ((organize_by_section toc_map content y m p).length = toc_map.length →
        List.Chain' (fun s1 s2 => s1.end_page + 1 = s2.start_page)
          (organize_by_section toc_map content y m p)) := by
  unfold organize_by_section
  split
  · refine ⟨List.Pairwise.nil, ?_, ?_⟩
    · intro last h
      simp at h
    · intro _
      exact List.chain'_nil
  · have hsorted := sortLe_toc_sorted toc_map
    refine ⟨?_, ?_, ?_⟩
    · refine (sectionsOfSortedToc_sep content y m p _ hsorted).imp ?_
      intro s1 s2 hlt q hq
      obtain ⟨h1, h2, h3, h4⟩ := hq
      omega
    · intro last hlast
      exact sectionsOfSortedToc_getLast content y m p _ hsorted last hlast
    · intro hlen
      have hperm := sortLe_perm tocLe toc_map
      have hlen2 : (sectionsOfSortedToc content y m p (sortLe tocLe toc_map)).length
          = (sortLe tocLe toc_map).length := by
        rw [hlen, hperm.length_eq]
      exact (sectionsOfSortedToc_nodrop content y m p _ hlen2).1

/-- C2 witness: a TOC with no dropped entries yields adjacent, contiguous
sections. -/
theorem organize_by_section_page_ranges_witness :
    List.Chain' (fun s1 s2 => s1.end_page + 1 = s2.start_page)
      (organize_by_section [("A", 1), ("B", 3)] [[], [], [], []] "y" "m" "s") :=
  (organize_by_section_page_ranges [("A", 1), ("B", 3)] [[], [], [], []] "y" "m" "s").2.2
    (by decide)

/-- C7 counterexample: two TOC entries sharing start page 1 over a
one-page document yield a first section with `start_page = 1` and
`end_page = 0`, violating the invariant `end_page ≥ start_page`. -/
theorem organize_by_section_invariant_cex :
    ((organize_by_section [("A", 1), ("B", 1)] [['x']] "y" "m" "s").map
        (fun s => (s.start_page, s.end_page))) = [(1, 0), (1, 1)]
    ∧ (organize_by_section [("A", 1), ("B", 1)] [['x']] "y" "m" "s").any
        (fun s => decide (s.end_page < s.start_page)) = true := by
  exact ⟨by decide, by decide⟩

/-- C7 (amended): every section returned by `organize_by_section`
satisfies `start_page ≥ 1` and `end_page ≤ page count`; the invariant
`end_page ≥ start_page` additionally holds whenever the TOC start pages
are pairwise distinct and none exceeds the page count (it fails for
duplicated start pages and for entries starting past the last page). -/
theorem organize_by_section_page_bounds (toc_map : List (String × Int))
    (content : List (List Char)) (y m p : String) :
    (∀ sec ∈ organize_by_section toc_map content y m p,
        1 ≤ sec.start_page ∧ sec.end_page ≤ (content.length : Int))
    ∧ (List.Pairwise (fun a b : String × Int => a.2 ≠ b.2) toc_map →
        (∀ e ∈ toc_map, e.2 ≤ (content.length : Int)) →
        ∀ sec ∈ organize_by_section toc_map content y m p,
          sec.start_page ≤ sec.end_page) := by
  unfold organize_by_section
  split
  · constructor
    · intro sec h
      simp at h
    · intro _ _ sec h
      simp at h
  · constructor
    · intro sec hmem
      rcases sectionsOfSortedToc_bounds content y m p _ sec hmem with ⟨h1, h2, _⟩
      exact ⟨h1, h2⟩
    · intro hne hle sec hmem
      have hsorted := sortLe_toc_sorted toc_map
      have hperm := sortLe_perm tocLe toc_map
      have hne2 : List.Pairwise (fun a b : String × Int => a.2 ≠ b.2)
          (sortLe tocLe toc_map) :=
        (hperm.pairwise_iff (fun h => h.symm)).mpr hne
      have hstrict : List.Pairwise (fun a b : String × Int => a.2 < b.2)
          (sortLe tocLe toc_map) :=
        (hsorted.and hne2).imp (fun h => lt_of_le_of_ne h.1 h.2)
      have hle2 : ∀ e ∈ sortLe tocLe toc_map, e.2 ≤ (content.length : Int) :=
        fun e he => hle e (hperm.mem_iff.mp he)
      exact sectionsOfSortedToc_start_le_end content y m p _ hstrict hle2 sec hmem

/-- C7 witness: distinct in-range start pages yield sections satisfying
the full invariant. -/
theorem organize_by_section_page_bounds_witness :
    ((organize_by_section [("A", 1), ("B", 3)] [[], [], [], []] "y2" "m2" "s2").all
        (fun s => decide (1 ≤ s.start_page ∧ s.start_page ≤ s.end_page
          ∧ s.end_page ≤ (4 : Int)))) = true := by
  have h := organize_by_section_page_bounds [("A", 1), ("B", 3)] [[], [], [], []] "y2" "m2" "s2"
  rw [List.all_eq_true]
  intro s hs
  have h1 := h.1 s hs
  have h2 := h.2 (by decide) (by decide) s hs
  rw [decide_eq_true_eq]
  refine ⟨h1.1, h2, ?_⟩
  simpa using h1.2

/-- C5 witness: two disjoint sections and one drawing landing in the
first section; the drawing is attached at most once. -/
theorem map_drawings_at_most_one_witness :
    (map_drawings_to_sections
        [⟨"A", 1, 2, [], "m", "y", "s", []⟩, ⟨"B", 3, 4, [], "m", "y", "s", []⟩]
        [⟨"id1", 1, "p", 0, 0, 10, 10, "m", "y", "s"⟩]).countP
      (fun s => drawingMatches s ⟨"id1", 1, "p", 0, 0, 10, 10, "m", "y", "s"⟩) ≤ 1 :=
  (map_drawings_at_most_one _ _
    (by
      refine List.pairwise_cons.mpr ⟨?_, List.pairwise_singleton _ _⟩
      intro s2 hs2 q hq
      rw [List.mem_singleton] at hs2
      subst hs2
      obtain ⟨h1, h2, h3, h4⟩ := hq
      simp only [PDFSection.start_page, PDFSection.end_page] at h1 h2 h3 h4
      omega)
    _).1

end MotoBot
